import Mathlib

/-!
Verification of the LSB-steganography codec in `steganography.py`.

The embedding models images after the encoder's up-front RGB conversion:
a pixel is a triple of natural channel values, and an image is its
width, height and a row-major pixel list.  Messages are lists of
character code points.  File output is modelled by the encoder
returning an `Except` value: `.ok` carries the image that would be
saved together with its diagnostics, `.error` carries the maximum
character count printed in the refusal message.  Opening a file that
may be unreadable is modelled by `Option Img` arguments to the
`_io` wrappers, mirroring the `try/except` blocks around `Image.open`.
-/

abbrev Pixel := Nat × Nat × Nat

structure Img where
  width : Nat
  height : Nat
  pixels : List Pixel
  deriving DecidableEq, Repr

/-- `(channel & ~1) | bit` for a bit in `{0, 1}`. -/
def setLSB (v b : Nat) : Nat := v / 2 * 2 + b

/-- Binary digits of `n`, most significant first, empty for `0`
(the recursion is driven by a fuel argument so that it stays
structural; `n` itself is always enough fuel). -/
def bitsOfAux : Nat → Nat → List Nat
  | 0, _ => []
  | fuel + 1, n => if n = 0 then [] else bitsOfAux fuel (n / 2) ++ [n % 2]

def bitsOf (n : Nat) : List Nat := bitsOfAux n n

/-- Python `format(n, "08b")`: the binary digits of `n`, left-padded
with zeros to at least eight places. -/
def format08b (n : Nat) : List Nat :=
  List.replicate (8 - (bitsOf n).length) 0 ++ bitsOf n

/-- The stopping delimiter `"###"` as code points. -/
def delim : List Nat := [35, 35, 35]

/-- `''.join(format(ord(i), "08b") for i in s)`. -/
def charStream : List Nat → List Nat
  | [] => []
  | c :: cs => format08b c ++ charStream cs

/-- The bit stream actually embedded for a message: the message
followed by the delimiter, each character expanded to its bits. -/
def bitStream (m : List Nat) : List Nat := charStream (m ++ delim)

/-- Overwrite the least significant bits of the first
`min 3 (length bits)` channels of a pixel with the next stream bits. -/
def writePixel (p : Pixel) (bits : List Nat) : Pixel :=
  match bits, p with
  | [], p => p
  | [b0], (a, b, c) => (setLSB a b0, b, c)
  | [b0, b1], (a, b, c) => (setLSB a b0, setLSB b b1, c)
  | b0 :: b1 :: b2 :: _, (a, b, c) => (setLSB a b0, setLSB b b1, setLSB c b2)

/-- The encoder's pixel walk, reading from the original image and
writing into the copy.  The first component of the result is the
original pixel list after the walk (the source only ever calls
`getpixel` on it), the second is the copy after the LSB writes, the
third is the `modified_pixels` counter. -/
def encodeWalk : List Pixel → List Pixel → List Nat → List Pixel × List Pixel × Nat
  | orig, enc, [] => (orig, enc, 0)
  | [], enc, _ :: _ => ([], enc, 0)
  | po :: orig, [], _ :: _ => (po :: orig, [], 0)
  | po :: orig, _ :: enc, b :: bs =>
      let r := encodeWalk orig enc ((b :: bs).drop 3)
      (po :: r.1, writePixel po (b :: bs) :: r.2.1, r.2.2 + 1)

/-- The least significant bits of a pixel's three channels. -/
def pixelBits (p : Pixel) : List Nat := [p.1 % 2, p.2.1 % 2, p.2.2 % 2]

/-- The decoder's bit extraction: LSBs of every pixel in row-major order. -/
def extractBits : List Pixel → List Nat
  | [] => []
  | p :: ps => pixelBits p ++ extractBits ps

/-- `int(byte, 2)` on a list of binary digits. -/
def byteVal (l : List Nat) : Nat := l.foldl (fun a b => 2 * a + b) 0

/-- The last three entries of a list, Python `s[-3:]` for `len s ≥ 3`. -/
def trailing3 (l : List Nat) : List Nat := l.drop (l.length - 3)

/-- `len(decoded) >= 3 and decoded[-3:] == "###"`. -/
def trigger (l : List Nat) : Bool :=
  decide (3 ≤ l.length) && decide (trailing3 l = delim)

/-- One pass of the decoder's delimiter search: consume up to `steps`
bytes from the bit buffer, appending each decoded character to the
accumulator; return early with the delimiter-stripped message when the
accumulator ends in `"###"`. -/
def scanLoop : Nat → List Nat → List Nat → Option (List Nat) × List Nat
  | 0, _, acc => (none, acc)
  | steps + 1, bits, acc =>
      let acc' := acc ++ [byteVal (bits.take 8)]
      if trigger acc' then (some (acc'.take (acc'.length - 3)), acc')
      else scanLoop steps (bits.drop 8) acc'

/-- Number of loop iterations performed by
`for i in range(0, min(L, 50000), 8)` that pass the `i + 8 <= L`
guard: bytes `c` with `8 c < min L 50000` and `8 c + 8 ≤ L`. -/
def scanSteps (L : Nat) : Nat := min ((min L 50000 + 7) / 8) (L / 8)

/-- `32 <= ord(c) <= 126`. -/
def printableChar (c : Nat) : Bool := decide (32 ≤ c) && decide (c ≤ 126)

/-- `decode_image`: extract every LSB, then search the first 50,000
bits for a delimiter-terminated message; on failure fall back to the
printable-majority heuristic. -/
def decode_image (img : Img) : Option (List Nat) :=
  if (extractBits img.pixels).length < 8 then none
  else
    match scanLoop (scanSteps (extractBits img.pixels).length)
        (extractBits img.pixels) [] with
    | (some msg, _) => some msg
    | (none, decoded) =>
        if 2 < decoded.length then
          if decoded.length < 2 * (decoded.filter printableChar).length then
            some (decoded.filter printableChar)
          else none
        else none

/-- Python `"###" in s` starting-position test at the head. -/
def tripleHashAt (l : List Nat) : Bool := decide (l.take 3 = delim)

/-- Python `"###" in s`. -/
def containsTripleHash : List Nat → Bool
  | [] => false
  | c :: rest => tripleHashAt (c :: rest) || containsTripleHash rest

/-- The extraction loop of `verify_encoding`: no 50,000-bit cap, stop
on the delimiter, otherwise run through the whole buffer. -/
def verifyScan : Nat → List Nat → List Nat → List Nat
  | 0, _, acc => acc
  | steps + 1, bits, acc =>
      let acc' := acc ++ [byteVal (bits.take 8)]
      if trigger acc' then acc' else verifyScan steps (bits.drop 8) acc'

/-- `verify_encoding`: re-extract `(len(original) + 3) * 8` bits from
the encoded image, decode them, and compare with the original message
after stripping the last three characters. -/
def verify_encoding (img : Img) (orig : List Nat) : Bool :=
  let bits := (extractBits img.pixels).take ((orig.length + 3) * 8)
  let decoded := verifyScan (bits.length / 8) bits []
  if containsTripleHash decoded then
    decide (decoded.take (decoded.length - 3) = orig)
  else false

structure EncodeResult where
  image : Img
  modifiedPixels : Nat
  verified : Bool
  deriving DecidableEq, Repr

/-- The image the encoder saves: the carrier's copy after the LSB walk. -/
def encodedImg (img : Img) (m : List Nat) : Img :=
  ⟨img.width, img.height, (encodeWalk img.pixels img.pixels (bitStream m)).2.1⟩

/-- The `modified_pixels` diagnostic of the walk. -/
def modifiedCount (img : Img) (m : List Nat) : Nat :=
  (encodeWalk img.pixels img.pixels (bitStream m)).2.2

/-- `encode_image`: refuse when the message-plus-delimiter bit stream
exceeds `width * height * 3` bits, reporting `max_capacity // 8`
characters; otherwise run the walk on a copy, run the diagnostic
self-check, and save. -/
def encode_image (img : Img) (message : List Nat) : Except Nat EncodeResult :=
  if img.width * img.height * 3 < (bitStream message).length then
    .error (img.width * img.height * 3 / 8)
  else
    .ok ⟨encodedImg img message, modifiedCount img message,
         verify_encoding (encodedImg img message) message⟩

def isOk : Except Nat EncodeResult → Bool
  | .ok _ => true
  | .error _ => false

def reportedMax : Except Nat EncodeResult → Option Nat
  | .error r => some r
  | .ok _ => none

def okImage : Except Nat EncodeResult → Option Img
  | .ok r => some r.image
  | .error _ => none

/-- The analyzer's `max_characters` value, `total_bits // 8 - 3` over
the integers (Python subtraction does not clamp at zero). -/
def usable_characters (img : Img) : Int :=
  ((img.width * img.height * 3 / 8 : Nat) : Int) - 3

structure CapacityInfo where
  width : Nat
  height : Nat
  max_bits : Nat
  max_characters : Int
  file_size_kb : Nat
  deriving DecidableEq, Repr

/-- `analyze_image_capacity` on an already opened image; the file size
is a parameter because only `os.path.getsize` supplies it. -/
def analyze_image_capacity (img : Img) (fileSize : Nat) : CapacityInfo :=
  ⟨img.width, img.height, img.width * img.height * 3,
   usable_characters img, fileSize⟩

/-- `encode_image` including the `Image.open` step: an unreadable
source is `none` and the surrounding `try/except` turns it into the
boolean failure result. -/
def encode_image_io (src : Option Img) (message : List Nat) : Bool :=
  match src with
  | none => false
  | some img => isOk (encode_image img message)

/-- `decode_image` including the `Image.open` step. -/
def decode_image_io (src : Option Img) : Option (List Nat) :=
  match src with
  | none => none
  | some img => decode_image img

/-- `analyze_image_capacity` including the `Image.open` step. -/
def analyze_image_capacity_io (src : Option Img) (fileSize : Nat) :
    Option CapacityInfo :=
  match src with
  | none => none
  | some img => some (analyze_image_capacity img fileSize)

/-! ### Basic facts about the bit-level primitives -/

set_option maxRecDepth 4096 in
theorem format08b_length {n : Nat} (h : n < 256) : (format08b n).length = 8 := by
  revert n h
  decide

set_option maxRecDepth 4096 in
theorem byteVal_format08b {n : Nat} (h : n < 256) : byteVal (format08b n) = n := by
  revert n h
  decide

set_option maxRecDepth 4096 in
theorem format08b_lt_two {n : Nat} (h : n < 256) : ∀ b ∈ format08b n, b < 2 := by
  revert n h
  decide

theorem charStream_append (l₁ l₂ : List Nat) :
    charStream (l₁ ++ l₂) = charStream l₁ ++ charStream l₂ := by
  induction l₁ with
  | nil => simp [charStream]
  | cons c cs ih => simp [charStream, ih]

theorem charStream_length {cs : List Nat} (h : ∀ c ∈ cs, c < 256) :
    (charStream cs).length = 8 * cs.length := by
  induction cs with
  | nil => simp [charStream]
  | cons c cs ih =>
      have hc : c < 256 := h c (List.mem_cons_self c cs)
      have hcs : ∀ x ∈ cs, x < 256 := fun x hx => h x (List.mem_cons_of_mem c hx)
      simp [charStream, format08b_length hc, ih hcs, List.length_append,
        Nat.mul_succ, Nat.mul_add]
      omega

theorem charStream_lt_two {cs : List Nat} (h : ∀ c ∈ cs, c < 256) :
    ∀ b ∈ charStream cs, b < 2 := by
  induction cs with
  | nil => simp [charStream]
  | cons c cs ih =>
      intro b hb
      have hc : c < 256 := h c (List.mem_cons_self c cs)
      have hcs : ∀ x ∈ cs, x < 256 := fun x hx => h x (List.mem_cons_of_mem c hx)
      rcases List.mem_append.1 (by simpa [charStream] using hb) with h1 | h2
      · exact format08b_lt_two hc b h1
      · exact ih hcs b h2

theorem bitStream_length {m : List Nat} (h : ∀ c ∈ m, c < 256) :
    (bitStream m).length = 8 * (m.length + 3) := by
  have hall : ∀ c ∈ m ++ delim, c < 256 := by
    intro c hc
    rcases List.mem_append.1 hc with h1 | h2
    · exact h c h1
    · rcases (by simpa [delim] using h2 : c = 35) with rfl
      decide
  simpa [bitStream, delim] using charStream_length hall

theorem bitStream_lt_two {m : List Nat} (h : ∀ c ∈ m, c < 256) :
    ∀ b ∈ bitStream m, b < 2 := by
  apply charStream_lt_two
  intro c hc
  rcases List.mem_append.1 hc with h1 | h2
  · exact h c h1
  · rcases (by simpa [delim] using h2 : c = 35) with rfl
    decide

theorem setLSB_mod_two {v b : Nat} (h : b < 2) : setLSB v b % 2 = b := by
  unfold setLSB
  omega

/-- Writing a bit prefix into a pixel leaves exactly that prefix in
the pixel's LSBs, the untouched channels keeping their old LSBs. -/
theorem pixelBits_writePixel (p : Pixel) (bits : List Nat)
    (h : ∀ b ∈ bits, b < 2) :
    pixelBits (writePixel p bits)
      = bits.take 3 ++ (pixelBits p).drop bits.length := by
  obtain ⟨a, b, c⟩ := p
  match bits with
  | [] => simp [writePixel, pixelBits]
  | [b0] =>
      have h0 : b0 < 2 := h b0 (by simp)
      simp [writePixel, pixelBits, setLSB_mod_two h0]
  | [b0, b1] =>
      have h0 : b0 < 2 := h b0 (by simp)
      have h1 : b1 < 2 := h b1 (by simp)
      simp [writePixel, pixelBits, setLSB_mod_two h0, setLSB_mod_two h1]
  | b0 :: b1 :: b2 :: rest =>
      have h0 : b0 < 2 := h b0 (by simp)
      have h1 : b1 < 2 := h b1 (by simp)
      have h2 : b2 < 2 := h b2 (by simp)
      simp [writePixel, pixelBits, setLSB_mod_two h0, setLSB_mod_two h1,
        setLSB_mod_two h2, List.drop_eq_nil_of_le]

/-! ### Facts about the encoder's walk -/

/-- The walk never writes into the original pixel list. -/
theorem encodeWalk_fst (o e : List Pixel) (bits : List Nat) :
    (encodeWalk o e bits).1 = o := by
  induction o generalizing e bits with
  | nil =>
      match bits with
      | [] => simp [encodeWalk]
      | _ :: _ => simp [encodeWalk]
  | cons p o ih =>
      match bits, e with
      | [], _ => simp [encodeWalk]
      | _ :: _, [] => simp [encodeWalk]
      | b :: bs, _ :: e => simp [encodeWalk, ih]

theorem encodeWalk_length (o e : List Pixel) (bits : List Nat)
    (h : o.length ≤ e.length) :
    (encodeWalk o e bits).2.1.length = e.length := by
  induction o generalizing e bits with
  | nil =>
      match bits with
      | [] => simp [encodeWalk]
      | _ :: _ => simp [encodeWalk]
  | cons p o ih =>
      match bits, e with
      | [], _ => simp [encodeWalk]
      | _ :: _, [] => simp at h
      | b :: bs, q :: e =>
          simp only [encodeWalk, List.length_cons]
          rw [ih e ((b :: bs).drop 3) (by simpa using h)]

/-- The `modified_pixels` counter equals the number of pixels the walk
visits, `⌈bits / 3⌉`, whenever the stream fits in the image. -/
theorem encodeWalk_count (o : List Pixel) (bits : List Nat)
    (h : bits.length ≤ 3 * o.length) :
    (encodeWalk o o bits).2.2 = (bits.length + 2) / 3 := by
  induction o generalizing bits with
  | nil =>
      match bits with
      | [] => simp [encodeWalk]
      | _ :: _ => simp at h
  | cons p o ih =>
      match bits with
      | [] => simp [encodeWalk]
      | b :: bs =>
          simp only [encodeWalk]
          rw [ih ((b :: bs).drop 3) (by simp at h ⊢; omega)]
          simp only [List.length_cons, List.length_drop]
          omega

/-- Pixels past the visited range are returned unchanged. -/
theorem encodeWalk_drop (o : List Pixel) (bits : List Nat) (k : Nat)
    (h : bits.length ≤ 3 * k) :
    ((encodeWalk o o bits).2.1).drop k = o.drop k := by
  induction o generalizing bits k with
  | nil =>
      match bits with
      | [] => simp [encodeWalk]
      | _ :: _ => simp [encodeWalk]
  | cons p o ih =>
      match bits with
      | [] => simp [encodeWalk]
      | b :: bs =>
          match k with
          | 0 => simp at h
          | k + 1 =>
              simp only [encodeWalk, List.drop_succ_cons]
              exact ih ((b :: bs).drop 3) k (by simp at h ⊢; omega)

theorem extractBits_append (l₁ l₂ : List Pixel) :
    extractBits (l₁ ++ l₂) = extractBits l₁ ++ extractBits l₂ := by
  induction l₁ with
  | nil => simp [extractBits]
  | cons p ps ih => simp [extractBits, ih]

theorem extractBits_length (ps : List Pixel) :
    (extractBits ps).length = 3 * ps.length := by
  induction ps with
  | nil => simp [extractBits]
  | cons p ps ih => simp [extractBits, pixelBits, ih]; omega

/-- The LSBs of the written image are the embedded stream followed by
the untouched LSBs of the carrier. -/
theorem extractBits_encodeWalk (o : List Pixel) (bits : List Nat)
    (hb : ∀ b ∈ bits, b < 2) (h : bits.length ≤ 3 * o.length) :
    extractBits (encodeWalk o o bits).2.1
      = bits ++ (extractBits o).drop bits.length := by
  induction o generalizing bits with
  | nil =>
      match bits with
      | [] => simp [encodeWalk, extractBits]
      | _ :: _ => simp at h
  | cons p o ih =>
      match bits with
      | [] => simp [encodeWalk, extractBits]
      | b :: bs =>
          have hb' : ∀ x ∈ (b :: bs).drop 3, x < 2 := by
            intro x hx
            exact hb x (List.mem_of_mem_drop hx)
          have hlen : ((b :: bs).drop 3).length ≤ 3 * o.length := by
            simp at h ⊢; omega
          simp only [encodeWalk, extractBits]
          rw [ih ((b :: bs).drop 3) hb' hlen,
            pixelBits_writePixel p (b :: bs) hb]
          have hpb : (pixelBits p).length = 3 := by simp [pixelBits]
          rcases bs with _ | ⟨b1, bs2⟩
          · rw [List.drop_append_of_le_length (by simp [hpb])]
            simp [extractBits]
          · rcases bs2 with _ | ⟨b2, rest⟩
            · rw [List.drop_append_of_le_length (by simp [hpb])]
              simp [extractBits]
            · have hL : (b :: b1 :: b2 :: rest).length
                  = (pixelBits p).length + rest.length := by
                simp only [pixelBits, List.length_cons, List.length_nil]
                omega
              rw [hL, List.drop_append, List.drop_eq_nil_of_le
                (Nat.le_add_right (pixelBits p).length rest.length)]
              simp

/-! ### The delimiter search -/

theorem containsTripleHash_append (a b : List Nat) :
    containsTripleHash (a ++ 35 :: 35 :: 35 :: b) = true := by
  induction a with
  | nil => simp [containsTripleHash, tripleHashAt, delim]
  | cons x a ih => simp [containsTripleHash, ih]

theorem getLast?_replicate_succ (n : Nat) (a : Nat) :
    (List.replicate (n + 1) a).getLast? = some a := by
  rw [List.replicate_succ', List.getLast?_concat]

theorem containsTripleHash_of_no35 {l : List Nat} (h : ∀ c ∈ l, c ≠ 35) :
    containsTripleHash l = false := by
  induction l with
  | nil => rfl
  | cons c rest ih =>
      have hc : c ≠ 35 := h c (List.mem_cons_self c rest)
      have hat : tripleHashAt (c :: rest) = false := by
        simp only [tripleHashAt, delim, decide_eq_false_iff_not]
        intro heq
        exact hc (by
          have := congrArg (fun l => l.head?) heq
          simpa [List.take_succ_cons] using this)
      simp [containsTripleHash, hat,
        ih fun x hx => h x (List.mem_cons_of_mem c hx)]

theorem trigger_append_delim (m : List Nat) : trigger (m ++ delim) = true := by
  have hlen : (m ++ delim).length = m.length + 3 := by simp [delim]
  have hdrop : (m ++ delim).length - 3 = m.length := by omega
  simp only [trigger, trailing3, hdrop, hlen, Bool.and_eq_true,
    decide_eq_true_eq]
  exact ⟨by omega, List.drop_left m delim⟩

theorem take_append_delim (m : List Nat) :
    (m ++ delim).take ((m ++ delim).length - 3) = m := by
  have hdrop : (m ++ delim).length - 3 = m.length := by simp [delim]
  rw [hdrop, List.take_left]

/-- A message without an internal `"###"` and not ending in `'#'`
never fires the delimiter test before its appended delimiter is
complete. -/
theorem trigger_take_eq_false {m : List Nat}
    (h1 : containsTripleHash m = false) (h2 : m.getLast? ≠ some 35) :
    ∀ k, 1 ≤ k → k < m.length + 3 → trigger ((m ++ delim).take k) = false := by
  intro k hk1 hk2
  have hlen : ((m ++ delim).take k).length = k := by
    simp only [List.length_take, List.length_append]
    simp [delim]
    omega
  by_cases h3 : k < 3
  · have hle : ¬ (3 ≤ ((m ++ delim).take k).length) := by rw [hlen]; omega
    simp only [trigger]
    rw [decide_eq_false hle, Bool.false_and]
  · push_neg at h3
    suffices hsuf : trailing3 ((m ++ delim).take k) ≠ delim by
      simp [trigger, hsuf]
    intro heq
    have htr : trailing3 ((m ++ delim).take k)
        = ((m ++ delim).take k).drop (k - 3) := by rw [trailing3, hlen]
    have hdecomp : (m ++ delim).take k
        = ((m ++ delim).take k).take (k - 3) ++ delim := by
      conv_lhs => rw [← List.take_append_drop (k - 3) ((m ++ delim).take k)]
      rw [← htr, heq]
    set t := ((m ++ delim).take k).take (k - 3) with ht
    rcases Nat.lt_or_ge k (m.length + 1) with hk | hk
    · -- the triple sits wholly inside the message
      have hkm : k ≤ m.length := by omega
      have htk : (m ++ delim).take k = m.take k :=
        List.take_append_of_le_length hkm
      have hmk : m.take k = t ++ delim := by rw [← htk, hdecomp]
      have hm : m = t ++ 35 :: 35 :: 35 :: m.drop k := by
        conv_lhs => rw [← List.take_append_drop k m]
        rw [hmk]
        simp [delim]
      rw [hm, containsTripleHash_append] at h1
      exact absurd h1 (by simp)
    · -- the triple overlaps the appended delimiter: m ends in '#'
      have hk' : k = m.length + 1 ∨ k = m.length + 2 := by omega
      rcases hk' with rfl | rfl
      · have htk : (m ++ delim).take (m.length + 1) = m ++ [35] := by
          rw [List.take_append]
          simp [delim]
        rw [htk] at hdecomp
        have hsplit : m ++ [35] = (t ++ [35, 35]) ++ [35] := by
          rw [hdecomp]
          simp [delim]
        have hm : m = t ++ [35, 35] := by
          have := congrArg List.dropLast hsplit
          simpa using this
        have : m.getLast? = some 35 := by
          rw [hm, show t ++ [35, 35] = (t ++ [35]) ++ [35] by simp,
            List.getLast?_concat]
        exact h2 this
      · have htk : (m ++ delim).take (m.length + 2) = m ++ [35, 35] := by
          rw [List.take_append]
          simp [delim]
        rw [htk] at hdecomp
        have hsplit : (m ++ [35]) ++ [35] = (t ++ [35, 35]) ++ [35] := by
          rw [show (m ++ [35]) ++ [35] = m ++ [35, 35] by simp, hdecomp]
          simp [delim]
        have hm : m ++ [35] = t ++ [35, 35] := by
          have := congrArg List.dropLast hsplit
          simpa using this
        have : m.getLast? = some 35 := by
          have hm' : m = t ++ [35] := by
            have := congrArg List.dropLast
              (show m ++ [35] = (t ++ [35]) ++ [35] by rw [hm]; simp)
            simpa using this
          rw [hm', List.getLast?_concat]
        exact h2 this

/-- When the accumulated characters fire the delimiter test exactly at
the end of `cs` and never before, the scan returns the stripped
accumulator, whatever bits follow. -/
theorem scanLoop_found :
    ∀ (cs acc junk : List Nat) (M : Nat), cs ≠ [] →
      (∀ c ∈ cs, c < 256) → cs.length ≤ M →
      (∀ k, 1 ≤ k → k < cs.length → trigger (acc ++ cs.take k) = false) →
      trigger (acc ++ cs) = true →
      scanLoop M (charStream cs ++ junk) acc
        = (some ((acc ++ cs).take ((acc ++ cs).length - 3)), acc ++ cs) := by
  intro cs
  induction cs with
  | nil => intro acc junk M h; exact absurd rfl h
  | cons c cs ih =>
      intro acc junk M _ hc hM hno hyes
      obtain ⟨M', rfl⟩ : ∃ M', M = M' + 1 := by
        cases M with
        | zero => simp at hM
        | succ M' => exact ⟨M', rfl⟩
      have hc0 : c < 256 := hc c (List.mem_cons_self c cs)
      have htake : (charStream (c :: cs) ++ junk).take 8 = format08b c := by
        rw [charStream, List.append_assoc]
        exact List.take_left' (format08b_length hc0)
      have hdrop : (charStream (c :: cs) ++ junk).drop 8
          = charStream cs ++ junk := by
        rw [charStream, List.append_assoc]
        exact List.drop_left' (format08b_length hc0)
      simp only [scanLoop, htake, byteVal_format08b hc0, hdrop]
      cases cs with
      | nil =>
          have hfire : trigger (acc ++ [c]) = true := hyes
          simp [hfire]
      | cons c1 cs1 =>
          have hng : trigger (acc ++ [c]) = false := by
            have := hno 1 (by omega) (by simp)
            simpa using this
          rw [hng]
          simp only [Bool.false_eq_true, if_false]
          have hres := ih (acc ++ [c]) junk M'
            (by simp)
            (fun x hx => hc x (List.mem_cons_of_mem c hx))
            (by simpa using hM)
            (by
              intro k hk1 hk2
              have := hno (k + 1) (by omega) (by simp at hk2 ⊢; omega)
              simpa [List.take_succ_cons, List.append_assoc] using this)
            (by simpa [List.append_assoc] using hyes)
          simpa [List.append_assoc] using hres

/-- When the delimiter test never fires within the step budget, the
scan exhausts its budget and accumulates exactly one character per
step. -/
theorem scanLoop_none :
    ∀ (M : Nat) (cs acc junk : List Nat),
      (∀ c ∈ cs, c < 256) → M ≤ cs.length →
      (∀ k, 1 ≤ k → k ≤ M → trigger (acc ++ cs.take k) = false) →
      scanLoop M (charStream cs ++ junk) acc = (none, acc ++ cs.take M) := by
  intro M
  induction M with
  | zero => intro cs acc junk _ _ _; simp [scanLoop]
  | succ M' ih =>
      intro cs acc junk hc hM hno
      cases cs with
      | nil => simp at hM
      | cons c cs1 =>
          have hc0 : c < 256 := hc c (List.mem_cons_self c cs1)
          have htake : (charStream (c :: cs1) ++ junk).take 8 = format08b c := by
            rw [charStream, List.append_assoc]
            exact List.take_left' (format08b_length hc0)
          have hdrop : (charStream (c :: cs1) ++ junk).drop 8
              = charStream cs1 ++ junk := by
            rw [charStream, List.append_assoc]
            exact List.drop_left' (format08b_length hc0)
          simp only [scanLoop, htake, byteVal_format08b hc0, hdrop]
          have hng : trigger (acc ++ [c]) = false := by
            have := hno 1 (by omega) (by omega)
            simpa using this
          rw [hng]
          simp only [Bool.false_eq_true, if_false]
          have hres := ih cs1 (acc ++ [c]) junk
            (fun x hx => hc x (List.mem_cons_of_mem c hx))
            (by simpa using hM)
            (by
              intro k hk1 hk2
              have := hno (k + 1) (by omega) (by omega)
              simpa [List.take_succ_cons, List.append_assoc] using this)
          simpa [List.take_succ_cons, List.append_assoc] using hres

theorem scanSteps_le_6250 (L : Nat) : scanSteps L ≤ 6250 := by
  unfold scanSteps
  omega

theorem scanSteps_ge {L n : Nat} (h8 : 8 * n ≤ L) (h5 : 8 * n ≤ 50000) :
    n ≤ scanSteps L := by
  unfold scanSteps
  omega

/-- Core round-trip: a within-capacity message of single-byte
characters that neither contains `"###"` nor ends in `'#'`, and is
short enough for its delimiter to fall inside the decoder's 50,000-bit
search window, is encoded successfully and decoded back exactly. -/
theorem roundTrip_core (img : Img) (m : List Nat)
    (hw : img.pixels.length = img.width * img.height)
    (hc : ∀ c ∈ m, c < 256)
    (hcap : (m.length + 3) * 8 ≤ img.width * img.height * 3)
    (hlen : m.length ≤ 6247)
    (h3 : containsTripleHash m = false)
    (hlast : m.getLast? ≠ some 35) :
    encode_image img m
        = .ok ⟨encodedImg img m, modifiedCount img m,
               verify_encoding (encodedImg img m) m⟩
      ∧ decode_image (encodedImg img m) = some m := by
  have hblen : (bitStream m).length = 8 * (m.length + 3) := bitStream_length hc
  have hfit : ¬ (img.width * img.height * 3 < (bitStream m).length) := by omega
  refine ⟨by simp [encode_image, hfit], ?_⟩
  have hb2 : ∀ b ∈ bitStream m, b < 2 := bitStream_lt_two hc
  have hcap' : (bitStream m).length ≤ 3 * img.pixels.length := by
    rw [hw]; omega
  have hx : extractBits (encodedImg img m).pixels
      = charStream (m ++ delim)
        ++ (extractBits img.pixels).drop (bitStream m).length := by
    simpa [encodedImg, bitStream] using
      extractBits_encodeWalk img.pixels (bitStream m) hb2 hcap'
  have hL : (extractBits (encodedImg img m).pixels).length
      = 3 * img.pixels.length := by
    rw [hx]
    have := extractBits_length img.pixels
    have hcs : (charStream (m ++ delim)).length = (bitStream m).length := rfl
    simp only [List.length_append, List.length_drop, hcs]
    omega
  have h8 : ¬ ((extractBits (encodedImg img m).pixels).length < 8) := by
    rw [hL]; omega
  have hM : m.length + 3
      ≤ scanSteps (extractBits (encodedImg img m).pixels).length := by
    rw [hL]
    exact scanSteps_ge (by omega) (by omega)
  have hcall : ∀ c ∈ m ++ delim, c < 256 := by
    intro c hcm
    rcases List.mem_append.1 hcm with h | h
    · exact hc c h
    · rcases (by simpa [delim] using h : c = 35) with rfl
      decide
  have hscan := scanLoop_found (m ++ delim) []
      ((extractBits img.pixels).drop (bitStream m).length)
      (scanSteps (extractBits (encodedImg img m).pixels).length)
      (by simp [delim])
      hcall
      (by simp only [List.length_append]; simp [delim]; omega)
      (by
        intro k hk1 hk2
        have hk2' : k < m.length + 3 := by
          simpa [delim] using hk2
        simpa using trigger_take_eq_false h3 hlast k hk1 hk2')
      (by simpa using trigger_append_delim m)
  rw [hx] at hscan h8
  unfold decode_image
  rw [hx, if_neg h8, hscan]
  simp only [List.nil_append]
  rw [take_append_delim]

/-- The scan only ever inspects the first `8 * steps` bits of its
buffer. -/
theorem scanLoop_take (M : Nat) :
    ∀ (bits acc : List Nat),
      scanLoop M bits acc = scanLoop M (bits.take (8 * M)) acc := by
  induction M with
  | zero => intro bits acc; rfl
  | succ M' ih =>
      intro bits acc
      simp only [scanLoop]
      have ht : (bits.take (8 * (M' + 1))).take 8 = bits.take 8 := by
        rw [List.take_take]
        congr 1
        omega
      rw [ht]
      have hd : (bits.take (8 * (M' + 1))).drop 8
          = (bits.drop 8).take (8 * M') := by
        rw [List.drop_take, show 8 * (M' + 1) - 8 = 8 * M' by omega]
      by_cases h : trigger (acc ++ [byteVal (bits.take 8)]) = true
      · rw [if_pos h, if_pos h]
      · rw [if_neg h, if_neg h, hd, ih (bits.drop 8)]

theorem extractBits_replicate_zero (n : Nat) :
    extractBits (List.replicate n ((0, 0, 0) : Pixel))
      = List.replicate (3 * n) 0 := by
  induction n with
  | zero => rfl
  | succ n ih =>
      rw [List.replicate_succ, show 3 * (n + 1) = 3 + 3 * n by omega,
        List.replicate_add]
      simp only [extractBits, ih]
      rfl

/-- The message and carrier of the beyond-the-cap scenario: 6248
letters `'a'`, whose delimiter occupies bits 50,008 … 50,032 of a
16670-pixel image — past the decoder's 50,000-bit search window. -/
def c3msg : List Nat := List.replicate 6248 97

def c3base : Img := ⟨16670, 1, List.replicate 16670 ((0, 0, 0) : Pixel)⟩

theorem c3msg_bits_length : (bitStream c3msg).length = 50008 := by
  have hc : ∀ c ∈ c3msg, c < 256 := by
    intro c hc
    rw [List.eq_of_mem_replicate hc]
    decide
  have h := bitStream_length hc
  rw [h, show c3msg.length = 6248 from by rw [c3msg, List.length_replicate]]

/-- When the scan comes back without a delimiter, the decoder's result
is the printable-majority heuristic applied to the candidate. -/
theorem decode_image_fallback (img : Img) (d : List Nat)
    (h8 : ¬ ((extractBits img.pixels).length < 8))
    (hscan : scanLoop (scanSteps (extractBits img.pixels).length)
        (extractBits img.pixels) [] = (none, d)) :
    decode_image img
      = if 2 < d.length then
          (if d.length < 2 * (d.filter printableChar).length then
            some (d.filter printableChar)
          else none)
        else none := by
  unfold decode_image
  rw [if_neg h8, hscan]

theorem c3_facts :
    encode_image c3base c3msg
        = .ok ⟨encodedImg c3base c3msg, modifiedCount c3base c3msg,
               verify_encoding (encodedImg c3base c3msg) c3msg⟩
      ∧ decode_image (encodedImg c3base c3msg) = some (c3msg ++ [35, 35]) := by
  have hc : ∀ c ∈ c3msg, c < 256 := by
    intro c hc
    rw [List.eq_of_mem_replicate hc]
    decide
  have hblen := c3msg_bits_length
  have hfit : ¬ (c3base.width * c3base.height * 3 < (bitStream c3msg).length) := by
    show ¬ (16670 * 1 * 3 < (bitStream c3msg).length)
    omega
  refine ⟨by unfold encode_image; rw [if_neg hfit], ?_⟩
  have hb2 : ∀ b ∈ bitStream c3msg, b < 2 := bitStream_lt_two hc
  have hpix : extractBits c3base.pixels = List.replicate 50010 0 := by
    rw [show c3base.pixels = List.replicate 16670 ((0, 0, 0) : Pixel) from rfl,
      extractBits_replicate_zero, show (3 : Nat) * 16670 = 50010 from by norm_num]
  have hcap' : (bitStream c3msg).length ≤ 3 * c3base.pixels.length := by
    rw [show c3base.pixels.length = 16670 from by
      rw [show c3base.pixels = List.replicate 16670 ((0, 0, 0) : Pixel) from rfl,
        List.length_replicate]]
    omega
  have hx : extractBits (encodedImg c3base c3msg).pixels
      = charStream (c3msg ++ delim)
        ++ (extractBits c3base.pixels).drop (bitStream c3msg).length := by
    simpa [encodedImg, bitStream] using
      extractBits_encodeWalk c3base.pixels (bitStream c3msg) hb2 hcap'
  have hjunk : (extractBits c3base.pixels).drop (bitStream c3msg).length
      = List.replicate 2 0 := by
    rw [hpix, hblen, List.drop_replicate]
  rw [hjunk] at hx
  have hL : (extractBits (encodedImg c3base c3msg).pixels).length = 50010 := by
    rw [hx, List.length_append, List.length_replicate]
    have hcs : (charStream (c3msg ++ delim)).length = (bitStream c3msg).length :=
      rfl
    omega
  have h8 : ¬ ((extractBits (encodedImg c3base c3msg).pixels).length < 8) := by
    rw [hL]; omega
  have hM : scanSteps (extractBits (encodedImg c3base c3msg).pixels).length
      = 6250 := by
    rw [hL]
    decide
  have h3 : containsTripleHash c3msg = false := by
    apply containsTripleHash_of_no35
    intro c hcm
    rw [List.eq_of_mem_replicate hcm]
    decide
  have hlast : c3msg.getLast? ≠ some 35 := by
    rw [c3msg, show (6248 : Nat) = 6247 + 1 from rfl, getLast?_replicate_succ]
    decide
  have hcall : ∀ c ∈ c3msg ++ delim, c < 256 := by
    intro c hcm
    rcases List.mem_append.1 hcm with h | h
    · exact hc c h
    · rcases (by simpa [delim] using h : c = 35) with rfl
      decide
  have hmlen : c3msg.length = 6248 := by rw [c3msg, List.length_replicate]
  have hscan := scanLoop_none 6250 (c3msg ++ delim) [] (List.replicate 2 0)
      hcall
      (by rw [List.length_append, hmlen]; norm_num [delim])
      (by
        intro k hk1 hk2
        have hk2' : k < c3msg.length + 3 := by omega
        simpa using trigger_take_eq_false h3 hlast k hk1 hk2')
  have htk : (c3msg ++ delim).take 6250 = c3msg ++ [35, 35] := by
    rw [show (6250 : Nat) = c3msg.length + 2 by omega, List.take_append]
    rfl
  rw [htk] at hscan
  simp only [List.nil_append] at hscan
  have hscanE : scanLoop
        (scanSteps (extractBits (encodedImg c3base c3msg).pixels).length)
        (extractBits (encodedImg c3base c3msg).pixels) []
      = (none, c3msg ++ [35, 35]) := by
    rw [hM, hx]
    exact hscan
  rw [decode_image_fallback (encodedImg c3base c3msg) (c3msg ++ [35, 35])
    h8 hscanE]
  have hdl : (c3msg ++ [35, 35]).length = 6250 := by
    rw [List.length_append, hmlen]
    rfl
  have hfl : (c3msg ++ [35, 35]).filter printableChar = c3msg ++ [35, 35] := by
    rw [List.filter_eq_self]
    intro a ha
    rcases List.mem_append.1 ha with h | h
    · rw [List.eq_of_mem_replicate h]
      decide
    · rcases (by simpa using h : a = 35) with rfl
      decide
  have hc1 : 2 < (c3msg ++ [35, 35]).length := by rw [hdl]; norm_num
  rw [hfl, if_pos hc1, hdl]
  norm_num

/-- C3, counterexample: the encoded carrier holds the delimiter of a
6248-character message just past the 50,000-bit search cap; the claim
promises the message is still found by a whole-image fallback, but the
decoder never searches there and instead returns the heuristic result
`message ++ "##"`. -/
theorem c3_counterexample :
    (bitStream c3msg).length = 50008
      ∧ isOk (encode_image c3base c3msg) = true
      ∧ decode_image (encodedImg c3base c3msg) = some (c3msg ++ [35, 35])
      ∧ decode_image (encodedImg c3base c3msg) ≠ some c3msg := by
  obtain ⟨he, hd⟩ := c3_facts
  refine ⟨c3msg_bits_length, by rw [he]; rfl, hd, ?_⟩
  rw [hd]
  intro hcontra
  have hlencontra := congrArg List.length (Option.some.inj hcontra)
  rw [List.length_append,
    show ([35, 35] : List Nat).length = 2 from rfl] at hlencontra
  omega

/-- C3, amended: the decoder searches for the delimiter only within
the first 50,000 extracted bits and has no fallback walk: two images
with equally many extracted bits that agree on the first 50,000 of
them decode identically, whatever lies beyond the cap. -/
theorem c3_search_cap (img₁ img₂ : Img)
    (hlen : (extractBits img₁.pixels).length = (extractBits img₂.pixels).length)
    (htake : (extractBits img₁.pixels).take 50000
        = (extractBits img₂.pixels).take 50000) :
    decode_image img₁ = decode_image img₂ := by
  have hM : scanSteps (extractBits img₁.pixels).length ≤ 6250 :=
    scanSteps_le_6250 _
  have hbits : (extractBits img₁.pixels).take
        (8 * scanSteps (extractBits img₁.pixels).length)
      = (extractBits img₂.pixels).take
        (8 * scanSteps (extractBits img₁.pixels).length) := by
    calc (extractBits img₁.pixels).take
          (8 * scanSteps (extractBits img₁.pixels).length)
        = ((extractBits img₁.pixels).take 50000).take
            (8 * scanSteps (extractBits img₁.pixels).length) := by
          rw [List.take_take]
          congr 1
          omega
      _ = ((extractBits img₂.pixels).take 50000).take
            (8 * scanSteps (extractBits img₁.pixels).length) := by rw [htake]
      _ = (extractBits img₂.pixels).take
            (8 * scanSteps (extractBits img₁.pixels).length) := by
          rw [List.take_take]
          congr 1
          omega
  unfold decode_image
  rw [← hlen,
    scanLoop_take (scanSteps (extractBits img₁.pixels).length)
      (extractBits img₁.pixels) [],
    scanLoop_take (scanSteps (extractBits img₁.pixels).length)
      (extractBits img₂.pixels) [],
    hbits]

theorem c3_search_cap_witness :
    decode_image ⟨1, 1, [((1, 2, 3) : Pixel)]⟩
      = decode_image ⟨1, 1, [((3, 2, 1) : Pixel)]⟩ :=
  c3_search_cap ⟨1, 1, [((1, 2, 3) : Pixel)]⟩ ⟨1, 1, [((3, 2, 1) : Pixel)]⟩
    (by decide) (by decide)

/-- An 11-pixel image whose LSBs spell the four characters
`'a', NUL, 'b', SOH` followed by one pad bit: the scan exhausts its
bit budget without a delimiter and exactly half the candidate is
printable. -/
def c7Pixels : List Pixel :=
  [(0, 1, 1), (0, 0, 0), (0, 1, 0), (0, 0, 0), (0, 0, 0), (0, 0, 1),
   (1, 0, 0), (0, 1, 0), (0, 0, 0), (0, 0, 0), (0, 1, 0)]

/-! ### Claim theorems -/

/-- C1, counterexample: the image has usable capacity 4 ≥ 1 + 3 and
the single-character message `"#"` is single-byte, yet decoding the
encoded image returns the empty message, because the trailing `'#'`
completes a delimiter early. -/
theorem c1_counterexample :
    ((1 : Int) + 3 ≤ usable_characters ⟨5, 4, List.replicate 20 ((0, 0, 0) : Pixel)⟩)
      ∧ (35 : Nat) < 256
      ∧ isOk (encode_image ⟨5, 4, List.replicate 20 ((0, 0, 0) : Pixel)⟩ [35]) = true
      ∧ (okImage (encode_image ⟨5, 4, List.replicate 20 ((0, 0, 0) : Pixel)⟩ [35])).bind
          decode_image = some []
      ∧ (okImage (encode_image ⟨5, 4, List.replicate 20 ((0, 0, 0) : Pixel)⟩ [35])).bind
          decode_image ≠ some [35] := by
  refine ⟨by decide, by decide, by decide, by decide, by decide⟩

/-- C1, amended: round-trip holds for every carrier with usable
capacity at least `len(m) + 3` and every single-byte message, provided
additionally that the message does not contain `"###"`, does not end
in `'#'`, and is at most 6247 characters long (so that the delimiter
falls inside the decoder's 50,000-bit search window). -/
theorem c1_round_trip (img : Img) (m : List Nat)
    (hw : img.pixels.length = img.width * img.height)
    (hc : ∀ c ∈ m, c < 256)
    (hcap : (m.length : Int) + 3 ≤ usable_characters img)
    (hlen : m.length ≤ 6247)
    (h3 : containsTripleHash m = false)
    (hlast : m.getLast? ≠ some 35) :
    isOk (encode_image img m) = true
      ∧ (okImage (encode_image img m)).bind decode_image = some m := by
  have hcap' : (m.length + 3) * 8 ≤ img.width * img.height * 3 := by
    unfold usable_characters at hcap
    omega
  obtain ⟨he, hd⟩ := roundTrip_core img m hw hc hcap' hlen h3 hlast
  rw [he]
  exact ⟨rfl, hd⟩

theorem c1_round_trip_witness :
    isOk (encode_image ⟨8, 3, List.replicate 24 ((0, 0, 0) : Pixel)⟩ [104, 105])
        = true
      ∧ (okImage (encode_image ⟨8, 3, List.replicate 24 ((0, 0, 0) : Pixel)⟩
          [104, 105])).bind decode_image = some [104, 105] :=
  c1_round_trip ⟨8, 3, List.replicate 24 ((0, 0, 0) : Pixel)⟩ [104, 105]
    (by decide) (by decide) (by decide) (by decide) (by decide) (by decide)

/-- C8: on any 10×10 three-channel image, encoding `"hi"` succeeds,
reports exactly 14 modified pixels, leaves every pixel from index 14
on untouched, and decodes back to `"hi"`. -/
theorem c8_hi_scenario (img : Img)
    (hwidth : img.width = 10) (hheight : img.height = 10)
    (hpix : img.pixels.length = 100) :
    isOk (encode_image img [104, 105]) = true
      ∧ modifiedCount img [104, 105] = 14
      ∧ (encodedImg img [104, 105]).pixels.drop 14 = img.pixels.drop 14
      ∧ decode_image (encodedImg img [104, 105]) = some [104, 105] := by
  have hw : img.pixels.length = img.width * img.height := by
    rw [hwidth, hheight, hpix]
  have hblen : (bitStream [104, 105]).length = 40 := by
    have := bitStream_length (m := [104, 105]) (by decide)
    simpa using this
  obtain ⟨he, hd⟩ := roundTrip_core img [104, 105] hw (by decide)
    (by
      simp only [hwidth, hheight, List.length_cons, List.length_nil]
      omega)
    (by simp) (by decide) (by decide)
  refine ⟨by rw [he]; rfl, ?_, ?_, hd⟩
  · unfold modifiedCount
    rw [encodeWalk_count img.pixels _ (by rw [hblen, hpix]; omega), hblen]
  · unfold encodedImg
    exact encodeWalk_drop img.pixels _ 14 (by rw [hblen]; omega)

theorem c8_hi_scenario_witness :
    isOk (encode_image ⟨10, 10, List.replicate 100 ((9, 14, 255) : Pixel)⟩
        [104, 105]) = true
      ∧ modifiedCount ⟨10, 10, List.replicate 100 ((9, 14, 255) : Pixel)⟩
          [104, 105] = 14
      ∧ (encodedImg ⟨10, 10, List.replicate 100 ((9, 14, 255) : Pixel)⟩
          [104, 105]).pixels.drop 14
          = (List.replicate 100 ((9, 14, 255) : Pixel)).drop 14
      ∧ decode_image (encodedImg ⟨10, 10, List.replicate 100 ((9, 14, 255) : Pixel)⟩
          [104, 105]) = some [104, 105] :=
  c8_hi_scenario ⟨10, 10, List.replicate 100 ((9, 14, 255) : Pixel)⟩
    rfl rfl (by decide)

/-- C2: on an image with exactly `C = cap/8 - 3` usable characters, a
message of length `C` is accepted, a message of length `C + 1` is
refused with no output value, and in general any message whose
message-plus-delimiter bit stream exceeds `width*height*3` bits is
refused before any write. -/
theorem c2_capacity_boundary (img : Img) (m₁ m₂ m₃ : List Nat)
    (h8 : 3 ≤ img.width * img.height * 3 / 8)
    (hc₁ : ∀ c ∈ m₁, c < 256) (hc₂ : ∀ c ∈ m₂, c < 256)
    (hl₁ : m₁.length = img.width * img.height * 3 / 8 - 3)
    (hl₂ : m₂.length = img.width * img.height * 3 / 8 - 3 + 1)
    (hover : img.width * img.height * 3 < (bitStream m₃).length) :
    isOk (encode_image img m₁) = true
      ∧ encode_image img m₂ = .error (img.width * img.height * 3 / 8)
      ∧ encode_image img m₃ = .error (img.width * img.height * 3 / 8) := by
  have hb₁ := bitStream_length hc₁
  have hb₂ := bitStream_length hc₂
  refine ⟨?_, ?_, ?_⟩
  · have hfit : ¬ (img.width * img.height * 3 < (bitStream m₁).length) := by
      omega
    simp [encode_image, hfit, isOk]
  · have hno : img.width * img.height * 3 < (bitStream m₂).length := by omega
    simp [encode_image, hno]
  · simp [encode_image, hover]

theorem c2_capacity_boundary_witness :
    isOk (encode_image ⟨8, 1, List.replicate 8 ((0, 0, 0) : Pixel)⟩ []) = true
      ∧ encode_image ⟨8, 1, List.replicate 8 ((0, 0, 0) : Pixel)⟩ [97]
          = .error (8 * 1 * 3 / 8)
      ∧ encode_image ⟨8, 1, List.replicate 8 ((0, 0, 0) : Pixel)⟩ [98]
          = .error (8 * 1 * 3 / 8) :=
  c2_capacity_boundary ⟨8, 1, List.replicate 8 ((0, 0, 0) : Pixel)⟩ [] [97] [98]
    (by decide) (by decide) (by decide) (by decide) (by decide) (by decide)

/-- C4, counterexample: an 8-pixel image has 24 writable bits, so the
longest message that fits is `24/8 - 3 = 0` characters, yet the
refusal of the one-character message `"a"` reports a maximum of 3
characters — and a 3-character message is itself refused. -/
theorem c4_counterexample :
    reportedMax (encode_image ⟨8, 1, List.replicate 8 ((0, 0, 0) : Pixel)⟩ [97])
        = some 3
      ∧ (3 : Nat) ≠ 8 * 1 * 3 / 8 - 3
      ∧ reportedMax
          (encode_image ⟨8, 1, List.replicate 8 ((0, 0, 0) : Pixel)⟩ [97, 97, 97])
          = some 3
      ∧ isOk (encode_image ⟨8, 1, List.replicate 8 ((0, 0, 0) : Pixel)⟩ []) = true := by
  refine ⟨by decide, by decide, by decide, by decide⟩

/-- C4, amended: whenever `encode_image` refuses a message, the count
it reports equals `width*height*3 // 8`, which is exactly 3 more than
the Capacity Analyzer's `max_characters`; a message of the reported
length is itself refused (with the same report), and whenever the
reported count is at least 3, the longest message that actually fits
has `reported - 3` characters: one of length `reported - 3` is
accepted and one of length `reported - 3 + 1` is refused again. -/
theorem c4_reported_max (img : Img) (m : List Nat) (r s : Nat)
    (h : encode_image img m = .error r) :
    r = img.width * img.height * 3 / 8
      ∧ (analyze_image_capacity img s).max_characters = (r : Int) - 3
      ∧ reportedMax (encode_image img (List.replicate r 97)) = some r
      ∧ (3 ≤ r → isOk (encode_image img (List.replicate (r - 3) 97)) = true)
      ∧ (3 ≤ r →
          reportedMax (encode_image img (List.replicate (r - 3 + 1) 97))
            = some r) := by
  have hr : r = img.width * img.height * 3 / 8 := by
    unfold encode_image at h
    split at h
    · injection h with h'
      exact h'.symm
    · exact absurd h (by simp)
  have hchars : ∀ k : Nat, ∀ c ∈ List.replicate k (97 : Nat), c < 256 := by
    intro k c hck
    rw [List.eq_of_mem_replicate hck]
    decide
  have hlen0 := bitStream_length (hchars r)
  have hlen1 := bitStream_length (hchars (r - 3))
  have hlen2 := bitStream_length (hchars (r - 3 + 1))
  rw [List.length_replicate] at hlen0 hlen1 hlen2
  refine ⟨hr, ?_, ?_, ?_, ?_⟩
  · simp [analyze_image_capacity, usable_characters, hr]
  · have hover : img.width * img.height * 3
        < (bitStream (List.replicate r 97)).length := by
      subst hr
      omega
    unfold encode_image
    rw [if_pos hover, ← hr]
    rfl
  · intro h3
    have hfit : ¬ (img.width * img.height * 3
        < (bitStream (List.replicate (r - 3) 97)).length) := by
      subst hr
      omega
    simp [encode_image, hfit, isOk]
  · intro h3
    have hover : img.width * img.height * 3
        < (bitStream (List.replicate (r - 3 + 1) 97)).length := by
      subst hr
      omega
    unfold encode_image
    rw [if_pos hover, ← hr]
    rfl

theorem c4_reported_max_witness :
    (3 : Nat) = 8 * 1 * 3 / 8
      ∧ (analyze_image_capacity ⟨8, 1, List.replicate 8 ((0, 0, 0) : Pixel)⟩ 0).max_characters
          = (3 : Int) - 3
      ∧ reportedMax (encode_image ⟨8, 1, List.replicate 8 ((0, 0, 0) : Pixel)⟩
          (List.replicate 3 97)) = some 3
      ∧ isOk (encode_image ⟨8, 1, List.replicate 8 ((0, 0, 0) : Pixel)⟩
          (List.replicate (3 - 3) 97)) = true
      ∧ reportedMax (encode_image ⟨8, 1, List.replicate 8 ((0, 0, 0) : Pixel)⟩
          (List.replicate (3 - 3 + 1) 97)) = some 3 :=
  have h := c4_reported_max ⟨8, 1, List.replicate 8 ((0, 0, 0) : Pixel)⟩ [97] 3 0
    (by unfold encode_image; rw [if_pos (by decide)]; rfl)
  ⟨h.1, h.2.1, h.2.2.1, h.2.2.2.1 (by decide), h.2.2.2.2 (by decide)⟩

/-- C5: the pixel walk that `encode_image` performs returns the
carrier's pixel list untouched in its first component; every LSB write
goes into the copy (second component), which is what `encodedImg`
reads. -/
theorem c5_no_mutation (img : Img) (m : List Nat) :
    (encodeWalk img.pixels img.pixels (bitStream m)).1 = img.pixels :=
  encodeWalk_fst img.pixels img.pixels (bitStream m)

/-- C6: for an in-capacity message, even when the internal self-check
fails, `encode_image` still returns success carrying the written
image; the self-check value lands only in the diagnostic field. -/
theorem c6_selfcheck_diagnostic_only (img : Img) (m : List Nat)
    (hcap : (bitStream m).length ≤ img.width * img.height * 3)
    (hv : verify_encoding (encodedImg img m) m = false) :
    encode_image img m = .ok ⟨encodedImg img m, modifiedCount img m, false⟩ := by
  have hfit : ¬ (img.width * img.height * 3 < (bitStream m).length) := by omega
  unfold encode_image
  rw [if_neg hfit, hv]

theorem c6_selfcheck_diagnostic_only_witness :
    encode_image ⟨5, 4, List.replicate 20 ((0, 0, 0) : Pixel)⟩ [35]
      = .ok ⟨encodedImg ⟨5, 4, List.replicate 20 ((0, 0, 0) : Pixel)⟩ [35],
             modifiedCount ⟨5, 4, List.replicate 20 ((0, 0, 0) : Pixel)⟩ [35],
             false⟩ :=
  c6_selfcheck_diagnostic_only ⟨5, 4, List.replicate 20 ((0, 0, 0) : Pixel)⟩ [35]
    (by decide) (by decide)

/-- C7, counterexample: the scan of this 11-pixel image exhausts its
bit budget with the non-trivial candidate `['a', 0, 'b', 1]`, exactly
half of which is printable; the claim then promises the printable
subsequence `"ab"`, but the code requires strictly more than half and
returns the none value. -/
theorem c7_counterexample :
    scanLoop (scanSteps (extractBits c7Pixels).length) (extractBits c7Pixels) []
        = (none, [97, 0, 98, 1])
      ∧ 2 * (([97, 0, 98, 1] : List Nat).filter printableChar).length
          = ([97, 0, 98, 1] : List Nat).length
      ∧ 2 < ([97, 0, 98, 1] : List Nat).length
      ∧ decode_image ⟨11, 1, c7Pixels⟩ = none := by
  refine ⟨by decide, by decide, by decide, by decide⟩

/-- C7, amended: when the scan ends without a delimiter leaving a
candidate of length at least 3, the decoder returns the printable
subsequence exactly when strictly more than half of the candidate's
characters are printable, and the none value otherwise (including at
exactly one half). -/
theorem c7_heuristic (img : Img) (d : List Nat)
    (h8 : ¬ ((extractBits img.pixels).length < 8))
    (hscan : scanLoop (scanSteps (extractBits img.pixels).length)
        (extractBits img.pixels) [] = (none, d)) :
    decode_image img
      = if 2 < d.length then
          (if d.length < 2 * (d.filter printableChar).length then
            some (d.filter printableChar)
          else none)
        else none := by
  unfold decode_image
  rw [if_neg h8, hscan]

theorem c7_heuristic_witness :
    decode_image ⟨11, 1, c7Pixels⟩
      = if 2 < ([97, 0, 98, 1] : List Nat).length then
          (if ([97, 0, 98, 1] : List Nat).length
              < 2 * (([97, 0, 98, 1] : List Nat).filter printableChar).length then
            some (([97, 0, 98, 1] : List Nat).filter printableChar)
          else none)
        else none :=
  c7_heuristic ⟨11, 1, c7Pixels⟩ [97, 0, 98, 1] (by decide) (by decide)

/-- C9: with the opened source modelled as an `Option`, an unreadable
image (`none`) makes each of the three entry points return its
explicit failure value; the functions are total, so no exception can
escape. -/
theorem c9_fail_closed (m : List Nat) (s : Nat) :
    encode_image_io none m = false
      ∧ decode_image_io none = none
      ∧ analyze_image_capacity_io none s = none :=
  ⟨rfl, rfl, rfl⟩

/-- C10: on a readable image with fewer than 8 pixels the analyzer's
`max_characters` is negative, not clamped to zero and not a failure. -/
theorem c10_negative_capacity (img : Img) (s : Nat)
    (h : img.width * img.height < 8) :
    (analyze_image_capacity img s).max_characters < 0 := by
  unfold analyze_image_capacity usable_characters
  simp only
  omega

theorem c10_negative_capacity_witness :
    (1 * 1 < 8)
      ∧ (analyze_image_capacity ⟨1, 1, [((0, 0, 0) : Pixel)]⟩ 0).max_characters < 0
      ∧ (analyze_image_capacity ⟨1, 1, [((0, 0, 0) : Pixel)]⟩ 0).max_characters = -3 :=
  ⟨by decide, c10_negative_capacity ⟨1, 1, [((0, 0, 0) : Pixel)]⟩ 0 (by decide),
   by decide⟩
